import Mathlib

/-!
Shallow embedding of `src/reorder_notes.py`, the FDF-note reorderer.

Modelling conventions:
* Python `str` values are modelled as `List Char` (a Python string is a
  sequence of characters, so the list mirrors it exactly; Lean's UTF-8
  `String` would be a less direct model).
* Python `float` coordinates are idealised as rationals.  The program only
  adds, halves, maxes and compares coordinates, and every claim under
  verification is about those exact operations, not about binary rounding.
* The regex of `parse_fdf_notes` (lines 23-29) is embedded as a hand-written
  scanner that follows the Python `re` backtracking order: lazy `.*?` gaps
  try positions left to right, literals and character classes are exact, and
  the greedy pieces (`\d+`, `\.?`, `\d*`, the contents star) need no
  backtracking because in this particular pattern no alternative can consume
  a character that the following context needs (digits are never followed by
  a digit or a dot in the pattern, and a star iteration of the contents
  group never starts at `)`, which is the only character the closing `\)`
  accepts).  `\d` is modelled as ASCII `0`-`9` (the only digits the claims
  and the examples of the design document use).
* Python dicts keep insertion order; they are modelled as association lists
  with distinct keys.
* Fallible dict indexing (`KeyError`) is modelled with `Option`.
-/

/-- Decoded text, modelled as the sequence of its characters. -/
abbrev Str := List Char

/-- A parsed note: exactly the tuple `(note_text, x_center, y_top)` appended
at line 47 of the source. -/
abbrev Note := Str × ℚ × ℚ

/-- Python `str.replace` specialised to a two-character pattern `[a, b]` and a
one-character replacement `c`: scan left to right, replace non-overlapping
occurrences, and never rescan the replacement character. -/
def replace2 (a b c : Char) : Str → Str
  | x :: y :: r =>
    if x = a ∧ y = b then c :: replace2 a b c r else x :: replace2 a b c (y :: r)
  | s => s

/-- Line 37 of the source:
`content.replace('\\(', '(').replace('\\)', ')').replace('\\\\', '\\')`. -/
def unescapeContent (s : Str) : Str :=
  replace2 '\\' '\\' '\\' (replace2 '\\' ')' ')' (replace2 '\\' '(' '(' s))

/-- Specification-side unescaper: one left-to-right scan mapping `\(` to `(`,
`\)` to `)` and `\\` to `\`, the two-character escapes taking priority over
reading a lone backslash. -/
def unescapeSpec : Str → Str
  | [] => []
  | [c] => [c]
  | a :: b :: r =>
    if a = '\\' ∧ (b = '(' ∨ b = ')' ∨ b = '\\') then b :: unescapeSpec r
    else a :: unescapeSpec (b :: r)

/-- Python `content.endswith('?')` (line 94). -/
def endsWithQ (s : Str) : Bool :=
  match s.getLast? with
  | some c => c = '?'
  | none => false

/-- Python `content.replace('?', '')` (line 95). -/
def replaceQmark : Str → Str
  | [] => []
  | c :: r => if c = '?' then replaceQmark r else c :: replaceQmark r

/-- Lines 93-95 of the report writer: remove every question mark unless the
content ends with one. -/
def cleanContent (content : Str) : Str :=
  if endsWithQ content then content else replaceQmark content

/-- Python `str.split('\n')` (line 91). -/
def splitNL : Str → List Str
  | [] => [[]]
  | c :: r =>
    if c = '\n' then [] :: splitNL r
    else
      match splitNL r with
      | s :: ss => (c :: s) :: ss
      | [] => [[c]]

/-- The character for a single decimal digit. -/
def digitChar (d : ℕ) : Char := Char.ofNat (48 + d)

/-- Fuel-driven decimal spelling of a natural number (fuel keeps the
definition structurally recursive so it reduces in the kernel). -/
def natDigitsAux : ℕ → ℕ → Str
  | 0, _ => []
  | fuel + 1, n =>
    if n < 10 then [digitChar n] else natDigitsAux fuel (n / 10) ++ [digitChar (n % 10)]

/-- Decimal spelling of a natural number; models Python interpolation of an
`int` into an f-string. -/
def natDigits (n : ℕ) : Str := natDigitsAux (n + 1) n

/-- Greedy run of ASCII decimal digits: regex `\d+` and `\d*`. -/
def munchDigits : Str → Str × Str
  | [] => ([], [])
  | c :: r =>
    if c.isDigit then
      let p := munchDigits r
      (c :: p.1, p.2)
    else ([], c :: r)

/-- Coordinate token regex `(\d+\.?\d*)`: one or more digits, an optional
dot, then optionally more digits.  Returns the token and the rest. -/
def matchNum (s : Str) : Option (Str × Str) :=
  if (munchDigits s).1 = [] then none
  else
    match (munchDigits s).2 with
    | [] => some ((munchDigits s).1, [])
    | c :: r2 =>
      if c = '.' then
        some ((munchDigits s).1 ++ '.' :: (munchDigits r2).1, (munchDigits r2).2)
      else some ((munchDigits s).1, c :: r2)

/-- Match a literal at the head of the input, returning the rest. -/
def matchLit : Str → Str → Option Str
  | [], s => some s
  | _ :: _, [] => none
  | p :: ps, c :: cs => if c = p then matchLit ps cs else none

/-- The nested-parenthesis group of the contents regex,
`\((?:[^()\\]|\\.)*\)`, after its opening `(` has been consumed: scan up to
and including the first unescaped `)`.  Fails on a nested `(`, or on a
backslash at the end of input. -/
def matchInner : Str → Option (Str × Str)
  | [] => none
  | c :: r =>
    if c = ')' then some ([], r)
    else if c = '(' then none
    else if c = '\\' then
      match r with
      | [] => none
      | d :: r2 => (matchInner r2).map fun p => (c :: d :: p.1, p.2)
    else (matchInner r).map fun p => (c :: p.1, p.2)

/-- The contents capture `((?:[^()\\]|\\.|\((?:[^()\\]|\\.)*\))*)` followed
by the literal `\)`: returns the captured text and the input after the
closing parenthesis.  Fuel-driven; fuel `length + 1` always suffices because
every step consumes at least one character. -/
def matchTopF : ℕ → Str → Option (Str × Str)
  | _, [] => none
  | 0, _ :: _ => none
  | fuel + 1, c :: r =>
    if c = ')' then some ([], r)
    else if c = '(' then
      (matchInner r).bind fun q =>
        (matchTopF fuel q.2).map fun p => ('(' :: q.1 ++ ')' :: p.1, p.2)
    else if c = '\\' then
      r.head?.bind fun d => (matchTopF fuel r.tail).map fun p => (c :: d :: p.1, p.2)
    else (matchTopF fuel r).map fun p => (c :: p.1, p.2)

/-- The fixed literals of the regex on lines 24-27 of the source. -/
def markerLit : Str := "/Type/Annot/Subtype/Highlight".toList

/-- Literal opening the rectangle field. -/
def rectLit : Str := "/Rect[".toList

/-- Literal opening the page-number field. -/
def pageLit : Str := "/Page ".toList

/-- Literal opening the contents field. -/
def contLit : Str := "/Contents(".toList

/-- Attempt `/Contents\((...)\)` exactly at the head of the input. -/
def tryContents (s : Str) : Option (Str × Str) :=
  (matchLit contLit s).bind fun r => matchTopF (r.length + 1) r

/-- The lazy gap `.*?` before `/Contents`: positions are tried left to
right, which is the backtracking order of a lazy quantifier under DOTALL. -/
def searchContents : Str → Option (Str × Str)
  | [] => none
  | c :: r =>
    match tryContents (c :: r) with
    | some v => some v
    | none => searchContents r

/-- Attempt `/Page (\d+)` at the head of the input, followed by the lazy gap
and the contents field.  Returns (page digits, raw contents, rest). -/
def tryPage (s : Str) : Option (Str × Str × Str) :=
  (matchLit pageLit s).bind fun r =>
    if (munchDigits r).1 = [] then none
    else (searchContents (munchDigits r).2).map fun q => ((munchDigits r).1, q.1, q.2)

/-- The lazy gap `.*?` before `/Page`. -/
def searchPage : Str → Option (Str × Str × Str)
  | [] => none
  | c :: r =>
    match tryPage (c :: r) with
    | some v => some v
    | none => searchPage r

/-- The capture groups of one successful match of the regex on lines 23-29:
four rectangle coordinates, the page digits, and the raw contents. -/
structure RawMatch where
  t1 : Str
  t2 : Str
  t3 : Str
  t4 : Str
  pg : Str
  content : Str

/-- One coordinate token followed by its separator character. -/
def matchNumSep (sep : Char) (s : Str) : Option (Str × Str) :=
  match matchNum s with
  | some (t, c :: r) => if c = sep then some (t, r) else none
  | _ => none

/-- Attempt `/Rect\[(num) (num) (num) (num)\]` at the head of the input and
then everything after it.  Keeping the later fields inside the attempt means
that when they fail the enclosing lazy gap advances, which is exactly the
regex backtracking order. -/
def tryRect (s : Str) : Option (RawMatch × Str) :=
  (matchLit rectLit s).bind fun r =>
    (matchNumSep ' ' r).bind fun q1 =>
      (matchNumSep ' ' q1.2).bind fun q2 =>
        (matchNumSep ' ' q2.2).bind fun q3 =>
          (matchNumSep ']' q3.2).bind fun q4 =>
            (searchPage q4.2).map fun q =>
              (⟨q1.1, q2.1, q3.1, q4.1, q.1, q.2.1⟩, q.2.2)

/-- The lazy gap `.*?` before `/Rect`. -/
def searchRect : Str → Option (RawMatch × Str)
  | [] => none
  | c :: r =>
    match tryRect (c :: r) with
    | some v => some v
    | none => searchRect r

/-- One full regex match starting exactly at the head of the input. -/
def matchRecord (s : Str) : Option (RawMatch × Str) :=
  (matchLit markerLit s).bind fun r => searchRect r

/-- `re.finditer`: non-overlapping matches, scanning left to right; on
failure the start position advances by one character, on success scanning
resumes right after the match.  Fuel `length + 1` always suffices because
each step strictly shortens the input (a match consumes at least the
29-character marker literal). -/
def findAllF : ℕ → Str → List RawMatch
  | _, [] => []
  | 0, _ :: _ => []
  | fuel + 1, c :: r =>
    match matchRecord (c :: r) with
    | some (m, rest) => m :: findAllF fuel rest
    | none => findAllF fuel r

/-- Python `int` on a string of decimal digits. -/
def digitsVal (s : Str) : ℕ := s.foldl (fun a c => 10 * a + (c.toNat - 48)) 0

/-- Python `float` on a token matched by `(\d+\.?\d*)`, as an exact decimal
rational. -/
def tokToRat (t : Str) : ℚ :=
  match munchDigits t with
  | (ds, '.' :: fr) =>
    (digitsVal ds : ℚ) + (digitsVal (munchDigits fr).1 : ℚ) / (10 : ℚ) ^ (munchDigits fr).1.length
  | (ds, _) => (digitsVal ds : ℚ)

/-- The two-line display text `* Highlight, page {page}\n{content}` built on
line 46 of the source. -/
def noteText (page : ℕ) (content : Str) : Str :=
  "* Highlight, page ".toList ++ natDigits page ++ '\n' :: content

/-- The note built from one regex match (lines 31-47): content unescaped,
`x_center = (x1+x2)/2`, `y_top = max(y1, y2)`, page converted to 1-based. -/
def mkNote (m : RawMatch) : Note :=
  (noteText (digitsVal m.pg + 1) (unescapeContent m.content),
   (tokToRat m.t1 + tokToRat m.t3) / 2,
   max (tokToRat m.t2) (tokToRat m.t4))

/-- Appending one note to the `notes_by_page` dict (lines 39-47): keys keep
first-occurrence order, values keep append order. -/
def insertNote : List (ℕ × List Note) → ℕ → Note → List (ℕ × List Note)
  | [], p, n => [(p, [n])]
  | (q, ns) :: rest, p, n =>
    if q = p then (q, ns ++ [n]) :: rest else (q, ns) :: insertNote rest p n

/-- `parse_fdf_notes` (lines 15-49) acting on the already-decoded text.  The
file reading and the permissive byte decoding on lines 19-20 happen before
the logic under verification and are outside the model. -/
def parse_fdf_notes (fdf_data : Str) : List (ℕ × List Note) :=
  (findAllF (fdf_data.length + 1) fdf_data).foldl
    (fun nbp m => insertNote nbp (digitsVal m.pg + 1) (mkNote m)) []

/-- The column threshold `page_width / 2` (line 57). -/
def column_split (page_width : ℚ) : ℚ := page_width / 2

/-- The partition loop of lines 63-67: strictly less than the threshold goes
to the left column, everything else (threshold included) to the right. -/
def splitColumns (notes : List Note) (page_width : ℚ) : List Note × List Note :=
  notes.partition fun note => decide (note.2.1 < column_split page_width)

/-- The key order of `sort(key=lambda x: -x[2])`: descending `y_top`. -/
def yDescRel (a b : Note) : Prop := b.2.2 ≤ a.2.2

instance : DecidableRel yDescRel := fun a b => inferInstanceAs (Decidable (b.2.2 ≤ a.2.2))

instance : IsTotal Note yDescRel := ⟨fun a b => le_total b.2.2 a.2.2⟩

instance : IsTrans Note yDescRel := ⟨fun _ _ _ h1 h2 => le_trans h2 h1⟩

/-- `reorder_notes_on_page` (lines 51-74).  Python `list.sort` is stable, and
a stable sort is extensionally determined by its (total, transitive) key
order, so the stable `insertionSort` is an exact model of it. -/
def reorder_notes_on_page (notes : List Note) (page_width : ℚ) : List Str :=
  let cols := splitColumns notes page_width
  let ls := cols.1.insertionSort yDescRel
  let rs := cols.2.insertionSort yDescRel
  (ls ++ rs).map fun note => note.1

/-- Second line of a display text: `note.split('\n')[1]` (line 91).  Python
raises `IndexError` when no second line exists, which cannot happen for
notes built by the parser; the model totalises that case with `[]`. -/
def extractContent (t : Str) : Str := (splitNL t).getD 1 []

/-- One printed note line `- {content}\n` (lines 89-97), after the
question-mark cleanup. -/
def noteLine (t : Str) : Str := '-' :: ' ' :: cleanContent (extractContent t) ++ ['\n']

/-- The page header chunk `Page {n}\n` (line 86). -/
def pageHeader (p : ℕ) : Str := "Page ".toList ++ natDigits p ++ ['\n']

/-- The separator chunk written after a non-final page (line 101). -/
def sepChunk : Str := "\n----------\n\n".toList

/-- The dict lookup `page_dimensions[page_num]` (line 82), made explicitly
fallible: `none` models the Python `KeyError`. -/
def lookupDim (dims : List (ℕ × ℚ × ℚ)) (p : ℕ) : Option (ℚ × ℚ) :=
  (dims.find? fun e => e.1 == p).map fun e => e.2

/-- The dict lookup `notes_by_page[page_num]` (line 83); total because the
iterated keys come from that same dict. -/
def lookupNotes (nbp : List (ℕ × List Note)) (p : ℕ) : List Note :=
  ((nbp.find? fun e => e.1 == p).map fun e => e.2).getD []

/-- The writer loop of lines 81-101 over an explicit key list.  The result
is the list of chunks passed to `file.write`, in order, paired with `some p`
when looking up page `p` failed (the `KeyError` aborts the loop: chunks
already written are kept — the `with` block still closes the file — and
nothing after the failing page is written). -/
def writePages (nbp : List (ℕ × List Note)) (dims : List (ℕ × ℚ × ℚ)) (maxKey : ℕ) :
    List ℕ → List Str × Option ℕ
  | [] => ([], none)
  | p :: rest =>
    match lookupDim dims p with
    | none => ([], some p)
    | some wh =>
      let body := pageHeader p :: (reorder_notes_on_page (lookupNotes nbp p) wh.1).map noteLine
      let chunks := if p ≠ maxKey then body ++ [sepChunk] else body
      let tail := writePages nbp dims maxKey rest
      (chunks ++ tail.1, tail.2)

/-- Python `sorted(notes_by_page.keys())` (line 81). -/
def sortedKeys (nbp : List (ℕ × List Note)) : List ℕ :=
  (nbp.map fun e => e.1).insertionSort fun a b => a ≤ b

/-- Python `max(notes_by_page.keys())` (line 100); only consulted when the
key list is nonempty. -/
def maxKeyOf (nbp : List (ℕ × List Note)) : ℕ := (nbp.map fun e => e.1).foldr max 0

/-- `write_reordered_notes` (lines 76-101). -/
def write_reordered_notes (nbp : List (ℕ × List Note)) (dims : List (ℕ × ℚ × ℚ)) :
    List Str × Option ℕ :=
  writePages nbp dims (maxKeyOf nbp) (sortedKeys nbp)

/-- Specification-side description of one page's output block: header chunk
followed by the reordered note lines, no separator. -/
def pageBlock (nbp : List (ℕ × List Note)) (dims : List (ℕ × ℚ × ℚ)) (p : ℕ) : List Str :=
  pageHeader p ::
    (reorder_notes_on_page (lookupNotes nbp p) ((lookupDim dims p).getD (0, 0)).1).map noteLine

/-- Specification-side join: the separator block between consecutive page
blocks and after nothing else. -/
def joinBlocks : List (List Str) → List Str
  | [] => []
  | [b] => b
  | b :: bs => b ++ sepChunk :: joinBlocks bs

/-- Characters the contents field may contain bare: regex `[^()\\]`. -/
def plainChar (c : Char) : Bool := !(c == '(' || c == ')' || c == '\\')

/-- Words of the inner group `(?:[^()\\]|\\.)*` of the contents pattern. -/
inductive InnerOk : Str → Prop
  | nil : InnerOk []
  | esc (d : Char) (r : Str) : InnerOk r → InnerOk ('\\' :: d :: r)
  | plain (c : Char) (r : Str) : plainChar c = true → InnerOk r → InnerOk (c :: r)

/-- Words of the contents grammar `(?:[^()\\]|\\.|\((?:[^()\\]|\\.)*\))*`:
bare characters, two-character escapes, and one level of balanced
parentheses. -/
inductive ContentOk : Str → Prop
  | nil : ContentOk []
  | esc (d : Char) (r : Str) : ContentOk r → ContentOk ('\\' :: d :: r)
  | plain (c : Char) (r : Str) : plainChar c = true → ContentOk r → ContentOk (c :: r)
  | nested (m r : Str) : InnerOk m → ContentOk r → ContentOk ('(' :: m ++ ')' :: r)

/-- Tokens accepted by the coordinate pattern `(\d+\.?\d*)`: a nonempty run
of digits, optionally followed by a dot and more digits. -/
def NumTok (t : Str) : Prop :=
  ∃ ds fs : Str, ds ≠ [] ∧ ds.all Char.isDigit ∧ fs.all Char.isDigit ∧
    (t = ds ∨ t = ds ++ '.' :: fs)

/-- One annotation record as it occurs in the decoded text: `j` is the text
before the record's type marker, `g1`, `g2`, `g3` are the texts matched by
the three lazy `.*?` gaps of the pattern (between the marker and the
rectangle field, between the rectangle and the page field, and between the
page digits and the contents field — the "arbitrary intervening attributes"
of the specification), and the remaining fields are the capture groups. -/
structure RecordSpec where
  j : Str
  g1 : Str
  t1 : Str
  t2 : Str
  t3 : Str
  t4 : Str
  g2 : Str
  pg : Str
  g3 : Str
  content : Str

/-- The record's text from its third gap on, followed by `rest`. -/
def contPart (r : RecordSpec) (rest : Str) : Str :=
  r.g3 ++ (contLit ++ (r.content ++ ')' :: rest))

/-- The record's text from its second gap on, followed by `rest`. -/
def pagePart (r : RecordSpec) (rest : Str) : Str :=
  r.g2 ++ (pageLit ++ (r.pg ++ contPart r rest))

/-- The record's text from its rectangle field on, followed by `rest`. -/
def rectPart (r : RecordSpec) (rest : Str) : Str :=
  rectLit ++ (r.t1 ++ (' ' :: (r.t2 ++ (' ' :: (r.t3 ++ (' ' :: (r.t4 ++
    (']' :: pagePart r rest))))))))

/-- The record's text from its type marker on, followed by `rest`. -/
def recordCore (r : RecordSpec) (rest : Str) : Str :=
  markerLit ++ (r.g1 ++ rectPart r rest)

/-- A list of records embedded in the decoded text: each record is preceded
by its junk `j`, and `tail` follows the last record. -/
def recordsText : List RecordSpec → Str → Str
  | [], tail => tail
  | r :: rs, tail => r.j ++ recordCore r (recordsText rs tail)

/-- Well-formedness of one record whose continuation is `rest`: the capture
groups come from the grammars the pattern accepts, and the surrounding
material does not fake a field of this record — the gaps contain no
occurrence of the next field's opening literal (the lazy gap would
otherwise attribute that earlier occurrence to the record), the third gap
does not begin with a digit (the greedy `(\d+)` would otherwise absorb it
into the page number), and the junk before the marker contains no marker
occurrence (a record would otherwise start there). -/
def RecordHyps (r : RecordSpec) (rest : Str) : Prop :=
  NumTok r.t1 ∧ NumTok r.t2 ∧ NumTok r.t3 ∧ NumTok r.t4 ∧
  r.pg ≠ [] ∧ r.pg.all Char.isDigit = true ∧ ContentOk r.content ∧
  (∀ i, i < r.g1.length → matchLit rectLit (List.drop i r.g1 ++ rectPart r rest) = none) ∧
  (∀ i, i < r.g2.length →
    matchLit pageLit (List.drop i r.g2 ++ (pageLit ++ (r.pg ++ contPart r rest))) = none) ∧
  (∀ i, i < r.g3.length →
    matchLit contLit (List.drop i r.g3 ++ (contLit ++ (r.content ++ ')' :: rest))) = none) ∧
  (∀ ch, r.g3.head? = some ch → ch.isDigit = false) ∧
  (∀ i, i < r.j.length → matchLit markerLit (List.drop i r.j ++ recordCore r rest) = none)

/-- The text after the last record contains no marker occurrence. -/
def TailOk (t : Str) : Prop :=
  ∀ i, i < t.length → matchLit markerLit (List.drop i t) = none

/-- Well-formedness of a whole record list followed by `tail`. -/
def RecordListOk : List RecordSpec → Str → Prop
  | [], tail => TailOk tail
  | r :: rs, tail => RecordHyps r (recordsText rs tail) ∧ RecordListOk rs tail

/-- The capture groups of a record, as a raw regex match. -/
def rawOf (r : RecordSpec) : RawMatch :=
  ⟨r.t1, r.t2, r.t3, r.t4, r.pg, r.content⟩

/-- The note the parser builds for a record (lines 31-47 of the source). -/
def noteOf (r : RecordSpec) : Note :=
  (noteText (digitsVal r.pg + 1) (unescapeContent r.content),
   (tokToRat r.t1 + tokToRat r.t3) / 2,
   max (tokToRat r.t2) (tokToRat r.t4))

/-- Sample record with junk before the marker and nonempty field gaps,
used to exercise the parser theorem. -/
def sampleRec1 : RecordSpec :=
  ⟨"%FDF-1.2\n".toList, "/F 4".toList, "10".toList, "700".toList, "50".toList, "720".toList,
   " 0 R".toList, "0".toList, " ".toList, "Left".toList⟩

/-- Sample record immediately following other material, with empty gaps. -/
def sampleRec2 : RecordSpec :=
  ⟨" obj\n".toList, [], "400".toList, "100".toList, "440".toList, "120".toList,
   [], "0".toList, [], "R".toList⟩

/-- Sample text after the last record. -/
def sampleTail : Str := "trailer".toList

/-- An annotation record whose rectangle starts with the negative coordinate
`-5.0`: type marker, subtype, four numbers, zero-based page field and
contents field are all present. -/
def cexInput : Str :=
  "/Type/Annot/Subtype/Highlight/Rect[-5.0 10.0 20.0 30.0]/Page 0/Contents(Hello)".toList

/-! ## Basic lemmas about the reorderer -/

theorem splitColumns_fst (notes : List Note) (w : ℚ) :
    (splitColumns notes w).1 = notes.filter fun n => decide (n.2.1 < column_split w) := by
  simp [splitColumns, List.partition_eq_filter_filter]

theorem splitColumns_snd (notes : List Note) (w : ℚ) :
    (splitColumns notes w).2 = notes.filter fun n => !decide (n.2.1 < column_split w) := by
  simp [splitColumns, List.partition_eq_filter_filter]
  rfl

theorem reorder_eq (notes : List Note) (w : ℚ) :
    reorder_notes_on_page notes w =
      ((splitColumns notes w).1.insertionSort yDescRel).map (fun n => n.1) ++
        ((splitColumns notes w).2.insertionSort yDescRel).map (fun n => n.1) := by
  simp [reorder_notes_on_page]

/-- C1: for every list of notes and page width, the reorderer's output is
exactly the display texts of the left-column notes sorted by `y_top`
descending, followed by the display texts of the right-column notes sorted by
`y_top` descending; left-column texts all precede right-column texts. -/
theorem C1_reorder_output (notes : List Note) (w : ℚ) :
    ∃ L R : List Note,
      reorder_notes_on_page notes w = L.map (fun n => n.1) ++ R.map (fun n => n.1) ∧
      L.Perm (notes.filter fun n => decide (n.2.1 < column_split w)) ∧
      R.Perm (notes.filter fun n => !decide (n.2.1 < column_split w)) ∧
      L.Pairwise yDescRel ∧ R.Pairwise yDescRel := by
  refine ⟨(splitColumns notes w).1.insertionSort yDescRel,
          (splitColumns notes w).2.insertionSort yDescRel,
          reorder_eq notes w, ?_, ?_, ?_, ?_⟩
  · rw [← splitColumns_fst]
    exact List.perm_insertionSort yDescRel _
  · rw [← splitColumns_snd]
    exact List.perm_insertionSort yDescRel _
  · exact List.sorted_insertionSort yDescRel _
  · exact List.sorted_insertionSort yDescRel _

/-- C2: the column split uses threshold `page_width / 2`; a note with
`x_center` strictly below the threshold goes to the left column and every
other note — including one exactly on the threshold — goes to the right
column. -/
theorem C2_threshold (notes : List Note) (w : ℚ) (n : Note) (hn : n ∈ notes) :
    column_split w = w / 2 ∧
    (n.2.1 < column_split w → n ∈ (splitColumns notes w).1) ∧
    (column_split w ≤ n.2.1 → n ∈ (splitColumns notes w).2) ∧
    (n.2.1 = column_split w → n ∈ (splitColumns notes w).2) := by
  refine ⟨rfl, ?_, ?_, ?_⟩
  · intro h
    rw [splitColumns_fst]
    exact List.mem_filter.mpr ⟨hn, by simpa using h⟩
  · intro h
    rw [splitColumns_snd]
    exact List.mem_filter.mpr ⟨hn, by simpa using not_lt.mpr h⟩
  · intro h
    rw [splitColumns_snd]
    exact List.mem_filter.mpr ⟨hn, by simp [h]⟩

theorem C2_threshold_witness :
    ((("n".toList, (300 : ℚ), (0 : ℚ)) : Note) ∈
        [(("n".toList, (300 : ℚ), (0 : ℚ)) : Note)]) ∧
    (column_split 600 = 600 / 2 ∧
     ((300 : ℚ) < column_split 600 →
        (("n".toList, (300 : ℚ), (0 : ℚ)) : Note) ∈
          (splitColumns [(("n".toList, (300 : ℚ), (0 : ℚ)) : Note)] 600).1) ∧
     (column_split 600 ≤ (300 : ℚ) →
        (("n".toList, (300 : ℚ), (0 : ℚ)) : Note) ∈
          (splitColumns [(("n".toList, (300 : ℚ), (0 : ℚ)) : Note)] 600).2) ∧
     ((300 : ℚ) = column_split 600 →
        (("n".toList, (300 : ℚ), (0 : ℚ)) : Note) ∈
          (splitColumns [(("n".toList, (300 : ℚ), (0 : ℚ)) : Note)] 600).2)) :=
  ⟨List.mem_singleton.mpr rfl,
   C2_threshold [(("n".toList, (300 : ℚ), (0 : ℚ)) : Note)] 600
     (("n".toList, (300 : ℚ), (0 : ℚ)) : Note) (List.mem_singleton.mpr rfl)⟩

/-- C9: with `page_width = 0` the threshold degenerates to `0`, and every
note with non-negative `x_center` lands in the right column, as the uniform
consequence of the general split rule. -/
theorem C9_zero_width (notes : List Note) (n : Note) (hn : n ∈ notes)
    (h0 : 0 ≤ n.2.1) : column_split 0 = 0 ∧ n ∈ (splitColumns notes 0).2 := by
  have hcs : column_split 0 = 0 := by norm_num [column_split]
  refine ⟨hcs, ?_⟩
  rw [splitColumns_snd]
  exact List.mem_filter.mpr ⟨hn, by simp [hcs, not_lt.mpr h0]⟩

theorem C9_zero_width_witness :
    ((("n".toList, (7 : ℚ), (1 : ℚ)) : Note) ∈
        [(("n".toList, (7 : ℚ), (1 : ℚ)) : Note)]) ∧
    (0 : ℚ) ≤ 7 ∧
    (column_split 0 = 0 ∧
      (("n".toList, (7 : ℚ), (1 : ℚ)) : Note) ∈
        (splitColumns [(("n".toList, (7 : ℚ), (1 : ℚ)) : Note)] 0).2) :=
  ⟨List.mem_singleton.mpr rfl, by norm_num,
   C9_zero_width _ _ (List.mem_singleton.mpr rfl) (by norm_num)⟩

/-- C5: notes in the same column with equal `y_top` keep their original
relative order in the reorderer's output (the per-column sort is stable). -/
theorem C5_stable_ties (notes : List Note) (w : ℚ) (a b : Note)
    (hsub : List.Sublist [a, b] notes) (hy : a.2.2 = b.2.2)
    (hcol : a.2.1 < column_split w ↔ b.2.1 < column_split w) :
    List.Sublist [a.1, b.1] (reorder_notes_on_page notes w) := by
  have hrel : yDescRel a b := by simp [yDescRel, hy]
  rw [reorder_eq]
  by_cases hL : a.2.1 < column_split w
  · have hb : b.2.1 < column_split w := hcol.mp hL
    have h1 : List.Sublist [a, b] (splitColumns notes w).1 := by
      rw [splitColumns_fst]
      have := hsub.filter fun n => decide (n.2.1 < column_split w)
      simpa [hL, hb] using this
    have h2 := List.pair_sublist_insertionSort hrel h1
    have h3 := h2.map fun n : Note => n.1
    exact h3.trans (List.sublist_append_left _ _)
  · have hb : ¬b.2.1 < column_split w := fun h => hL (hcol.mpr h)
    have h1 : List.Sublist [a, b] (splitColumns notes w).2 := by
      rw [splitColumns_snd]
      have := hsub.filter fun n => !decide (n.2.1 < column_split w)
      simpa [hL, hb] using this
    have h2 := List.pair_sublist_insertionSort hrel h1
    have h3 := h2.map fun n : Note => n.1
    exact h3.trans (List.sublist_append_right _ _)

theorem C5_stable_ties_witness :
    List.Sublist [(("a".toList, (1 : ℚ), (5 : ℚ)) : Note), (("b".toList, (2 : ℚ), (5 : ℚ)) : Note)]
      [(("a".toList, (1 : ℚ), (5 : ℚ)) : Note), (("b".toList, (2 : ℚ), (5 : ℚ)) : Note)] ∧
    (5 : ℚ) = 5 ∧
    ((1 : ℚ) < column_split 600 ↔ (2 : ℚ) < column_split 600) ∧
    List.Sublist ["a".toList, "b".toList]
      (reorder_notes_on_page
        [(("a".toList, (1 : ℚ), (5 : ℚ)) : Note), (("b".toList, (2 : ℚ), (5 : ℚ)) : Note)] 600) :=
  ⟨List.Sublist.refl _, rfl, by norm_num [column_split],
   C5_stable_ties _ 600
     (("a".toList, (1 : ℚ), (5 : ℚ)) : Note) (("b".toList, (2 : ℚ), (5 : ℚ)) : Note)
     (List.Sublist.refl _) rfl (by norm_num [column_split])⟩

theorem replaceQmark_eq_filter (s : Str) : replaceQmark s = s.filter fun c => c != '?' := by
  induction s with
  | nil => rfl
  | cons c r ih =>
    by_cases h : c = '?'
    · simp [replaceQmark, h, ih]
    · simp [replaceQmark, h, ih, List.filter_cons]

/-- C6: a content line that does not end with `?` has every `?` removed; one
that ends with `?` is printed unmodified.  In particular the two examples
from the specification behave as stated. -/
theorem C6_question_marks :
    (∀ content : Str,
        cleanContent content =
          if endsWithQ content then content else content.filter fun c => c != '?') ∧
    cleanContent "Is this right? maybe?".toList = "Is this right? maybe?".toList ∧
    cleanContent "What? Really".toList = "What Really".toList := by
  refine ⟨fun content => ?_, by decide, by decide⟩
  by_cases h : endsWithQ content
  · simp [cleanContent, h]
  · simp [cleanContent, h, replaceQmark_eq_filter]

/-! ## The unescaping of the contents field (C4) -/

theorem replace2_cons_ne (a b c x : Char) (s : Str) (h : x ≠ a) :
    replace2 a b c (x :: s) = x :: replace2 a b c s := by
  cases s with
  | nil => rfl
  | cons y t => simp [replace2, h]

theorem replace2_pair (a b c : Char) (s : Str) :
    replace2 a b c (a :: b :: s) = c :: replace2 a b c s := by
  simp [replace2]

theorem replace2_cons₂ (a b c y : Char) (s : Str) (h : y ≠ b) :
    replace2 a b c (a :: y :: s) = a :: replace2 a b c (y :: s) := by
  simp [replace2, h]

theorem replace2_runBS (b c : Char) (hb : b ≠ '\\') (k : ℕ) (x : Str)
    (hx : ∀ y t, x = y :: t → y ≠ b) :
    replace2 '\\' b c (List.replicate k '\\' ++ x) =
      List.replicate k '\\' ++ replace2 '\\' b c x := by
  induction k with
  | zero => simp
  | succ j ihj =>
    rw [List.replicate_succ, List.cons_append]
    have step : replace2 '\\' b c ('\\' :: (List.replicate j '\\' ++ x)) =
        '\\' :: replace2 '\\' b c (List.replicate j '\\' ++ x) := by
      cases j with
      | zero =>
        cases x with
        | nil => rfl
        | cons y t => simpa using replace2_cons₂ '\\' b c y t (hx y t rfl)
      | succ i =>
        rw [List.replicate_succ, List.cons_append]
        exact replace2_cons₂ '\\' b c '\\' _ (Ne.symm hb)
    rw [step, ihj, List.cons_append]

theorem replace2_hitBS (b : Char) (hb : b ≠ '\\') (k : ℕ) (x : Str) :
    replace2 '\\' b b (List.replicate k '\\' ++ b :: x) =
      List.replicate (k - 1) '\\' ++ b :: replace2 '\\' b b x := by
  induction k with
  | zero => simpa using replace2_cons_ne '\\' b b b x hb
  | succ j ihj =>
    rw [List.replicate_succ, List.cons_append]
    cases j with
    | zero => simpa using replace2_pair '\\' b b x
    | succ i =>
      have step : replace2 '\\' b b ('\\' :: (List.replicate (i + 1) '\\' ++ b :: x)) =
          '\\' :: replace2 '\\' b b (List.replicate (i + 1) '\\' ++ b :: x) := by
        rw [List.replicate_succ, List.cons_append]
        exact replace2_cons₂ '\\' b b '\\' _ (Ne.symm hb)
      rw [step, ihj]
      have : i + 1 + 1 - 1 = (i + 1 - 1) + 1 := by omega
      rw [this, List.replicate_succ, List.cons_append]

theorem replace2_bsbs (k : ℕ) (x : Str) (hx : ∀ y t, x = y :: t → y ≠ '\\') :
    replace2 '\\' '\\' '\\' (List.replicate k '\\' ++ x) =
      List.replicate ((k + 1) / 2) '\\' ++ replace2 '\\' '\\' '\\' x := by
  induction k using Nat.strong_induction_on with
  | _ k ihk =>
    rcases k with _ | k
    · simp
    rcases k with _ | j
    · rw [show List.replicate 1 '\\' ++ x = '\\' :: x by rfl]
      cases x with
      | nil => rfl
      | cons y t =>
        rw [replace2_cons₂ '\\' '\\' '\\' y t (hx y t rfl)]
        rfl
    · rw [List.replicate_succ, List.replicate_succ, List.cons_append, List.cons_append,
        replace2_pair]
      rw [ihk j (by omega)]
      have : (j + 1 + 1 + 1) / 2 = (j + 1) / 2 + 1 := by omega
      rw [this, List.replicate_succ, List.cons_append]

theorem unescapeSpec_cons_ne (c : Char) (t : Str) (h : c ≠ '\\') :
    unescapeSpec (c :: t) = c :: unescapeSpec t := by
  cases t with
  | nil => rfl
  | cons y r => simp [unescapeSpec, h]

theorem unescapeSpec_esc (b : Char) (t : Str) (hb : b = '(' ∨ b = ')' ∨ b = '\\') :
    unescapeSpec ('\\' :: b :: t) = b :: unescapeSpec t := by
  simp [unescapeSpec, hb]

theorem unescapeSpec_runBS_other (k : ℕ) (x : Str)
    (hx : ∀ y t, x = y :: t → y ≠ '\\' ∧ y ≠ '(' ∧ y ≠ ')') :
    unescapeSpec (List.replicate k '\\' ++ x) =
      List.replicate ((k + 1) / 2) '\\' ++ unescapeSpec x := by
  induction k using Nat.strong_induction_on with
  | _ k ihk =>
    rcases k with _ | k
    · simp
    rcases k with _ | j
    · rw [show List.replicate 1 '\\' ++ x = '\\' :: x by rfl]
      cases x with
      | nil => rfl
      | cons y t =>
        obtain ⟨h1, h2, h3⟩ := hx y t rfl
        simp [unescapeSpec, h1, h2, h3]
    · rw [List.replicate_succ, List.replicate_succ, List.cons_append, List.cons_append,
        unescapeSpec_esc '\\' _ (Or.inr (Or.inr rfl))]
      rw [ihk j (by omega)]
      have : (j + 1 + 1 + 1) / 2 = (j + 1) / 2 + 1 := by omega
      rw [this, List.replicate_succ, List.cons_append]

theorem unescapeSpec_runBS_delim (d : Char) (hd : d = '(' ∨ d = ')') (k : ℕ) (x : Str) :
    unescapeSpec (List.replicate k '\\' ++ d :: x) =
      List.replicate (k / 2) '\\' ++ d :: unescapeSpec x := by
  have hd' : d ≠ '\\' := by rcases hd with h | h <;> subst h <;> decide
  induction k using Nat.strong_induction_on with
  | _ k ihk =>
    rcases k with _ | k
    · simpa using unescapeSpec_cons_ne d x hd'
    rcases k with _ | j
    · rw [show List.replicate 1 '\\' ++ d :: x = '\\' :: d :: x by rfl]
      rw [unescapeSpec_esc d x (by tauto)]
      rfl
    · rw [List.replicate_succ, List.replicate_succ, List.cons_append, List.cons_append,
        unescapeSpec_esc '\\' _ (Or.inr (Or.inr rfl))]
      rw [ihk j (by omega)]
      have : (j + 1 + 1) / 2 = j / 2 + 1 := by omega
      rw [this, List.replicate_succ, List.cons_append]

theorem exists_bs_decomp (s : Str) :
    ∃ k x, s = List.replicate k '\\' ++ x ∧ ∀ y t, x = y :: t → y ≠ '\\' := by
  induction s with
  | nil => exact ⟨0, [], rfl, by simp⟩
  | cons c r ih =>
    by_cases h : c = '\\'
    · obtain ⟨k, x, hr, hx⟩ := ih
      subst h
      exact ⟨k + 1, x, by rw [List.replicate_succ, List.cons_append, hr], hx⟩
    · exact ⟨0, c :: r, by simp, fun y t ht => by
        injection ht with h1 _
        exact h1 ▸ h⟩

theorem unescape_agrees (s : Str) : unescapeContent s = unescapeSpec s := by
  have main : ∀ n (s : Str), s.length ≤ n → unescapeContent s = unescapeSpec s := by
    intro n
    induction n with
    | zero =>
      intro s hs
      have : s = [] := List.length_eq_zero.mp (Nat.le_zero.mp hs)
      subst this
      rfl
    | succ n ihn =>
      intro s hs
      obtain ⟨k, x, rfl, hx⟩ := exists_bs_decomp s
      unfold unescapeContent
      cases x with
      | nil =>
        have hA : replace2 '\\' '(' '(' (List.replicate k '\\') = List.replicate k '\\' := by
          have h := replace2_runBS '(' '(' (by decide) k [] (by simp)
          rw [show replace2 '\\' '(' '(' ([] : Str) = [] from rfl] at h
          simpa only [List.append_nil] using h
        have hB : replace2 '\\' ')' ')' (List.replicate k '\\') = List.replicate k '\\' := by
          have h := replace2_runBS ')' ')' (by decide) k [] (by simp)
          rw [show replace2 '\\' ')' ')' ([] : Str) = [] from rfl] at h
          simpa only [List.append_nil] using h
        have hC : replace2 '\\' '\\' '\\' (List.replicate k '\\') =
            List.replicate ((k + 1) / 2) '\\' := by
          have h := replace2_bsbs k [] (by simp)
          rw [show replace2 '\\' '\\' '\\' ([] : Str) = [] from rfl] at h
          simpa only [List.append_nil] using h
        have hU : unescapeSpec (List.replicate k '\\') = List.replicate ((k + 1) / 2) '\\' := by
          have h := unescapeSpec_runBS_other k [] (by simp)
          rw [show unescapeSpec [] = [] from rfl] at h
          simpa only [List.append_nil] using h
        rw [List.append_nil, hA, hB, hC, hU]
      | cons y t =>
        have hlt : t.length ≤ n := by
          have := hs
          simp only [List.length_append, List.length_replicate, List.length_cons] at this
          omega
        have iht : unescapeContent t = unescapeSpec t := ihn t hlt
        by_cases hyp : y = '('
        · subst hyp
          rw [replace2_hitBS '(' (by decide) k t]
          rw [replace2_runBS ')' ')' (by decide) (k - 1) _ (by intro z u hz; injection hz with h1 _; exact h1 ▸ (by decide))]
          rw [replace2_cons_ne '\\' ')' ')' '(' _ (by decide)]
          rw [replace2_bsbs (k - 1) _ (by intro z u hz; injection hz with h1 _; exact h1 ▸ (by decide))]
          rw [replace2_cons_ne '\\' '\\' '\\' '(' _ (by decide)]
          rw [unescapeSpec_runBS_delim '(' (Or.inl rfl) k t]
          rw [show (k - 1 + 1) / 2 = k / 2 by omega]
          rw [show replace2 '\\' '\\' '\\' (replace2 '\\' ')' ')' (replace2 '\\' '(' '(' t)) =
            unescapeContent t from rfl, iht]
        · by_cases hyp2 : y = ')'
          · subst hyp2
            rw [replace2_runBS '(' '(' (by decide) k _ (by intro z u hz; injection hz with h1 _; exact h1 ▸ (by decide))]
            rw [replace2_cons_ne '\\' '(' '(' ')' _ (by decide)]
            rw [replace2_hitBS ')' (by decide) k _]
            rw [replace2_bsbs (k - 1) _ (by intro z u hz; injection hz with h1 _; exact h1 ▸ (by decide))]
            rw [replace2_cons_ne '\\' '\\' '\\' ')' _ (by decide)]
            rw [unescapeSpec_runBS_delim ')' (Or.inr rfl) k t]
            rw [show (k - 1 + 1) / 2 = k / 2 by omega]
            rw [show replace2 '\\' '\\' '\\' (replace2 '\\' ')' ')' (replace2 '\\' '(' '(' t)) =
              unescapeContent t from rfl, iht]
          · have hyp3 : y ≠ '\\' := hx y t rfl
            rw [replace2_runBS '(' '(' (by decide) k _ (by intro z u hz; injection hz with h1 _; exact h1 ▸ hyp)]
            rw [replace2_cons_ne '\\' '(' '(' y _ hyp3]
            rw [replace2_runBS ')' ')' (by decide) k _ (by intro z u hz; injection hz with h1 _; exact h1 ▸ hyp2)]
            rw [replace2_cons_ne '\\' ')' ')' y _ hyp3]
            rw [replace2_bsbs k _ (by intro z u hz; injection hz with h1 _; exact h1 ▸ hyp3)]
            rw [replace2_cons_ne '\\' '\\' '\\' y _ hyp3]
            rw [unescapeSpec_runBS_other k _ (by intro z u hz; injection hz with h1 _; exact h1 ▸ ⟨hyp3, hyp, hyp2⟩)]
            rw [unescapeSpec_cons_ne y t hyp3]
            rw [show replace2 '\\' '\\' '\\' (replace2 '\\' ')' ')' (replace2 '\\' '(' '(' t)) =
              unescapeContent t from rfl, iht]
  exact main s.length s le_rfl

/-- C4: unescaping maps `\(` to `(`, `\)` to `)` and `\\` to `\`, with the
most-specific escape taking priority (the sequential replaces of line 37
agree with a single left-to-right escape scan on every string); in
particular `a \(nested\) b\\c` unescapes to `a (nested) b\c`. -/
theorem C4_unescape_mapping :
    (∀ s : Str, unescapeContent s = unescapeSpec s) ∧
    unescapeContent "a \\(nested\\) b\\\\c".toList = "a (nested) b\\c".toList :=
  ⟨unescape_agrees, by decide⟩

/-! ## The report writer (C7, C8, C10) -/

theorem le_foldr_max (l : List ℕ) (q : ℕ) (hq : q ∈ l) : q ≤ l.foldr max 0 := by
  induction l with
  | nil => cases hq
  | cons a t ih =>
    rw [List.foldr_cons]
    cases List.mem_cons.mp hq with
    | inl h => exact h ▸ le_max_left _ _
    | inr h => exact le_trans (ih h) (le_max_right _ _)

theorem foldr_max_mem (l : List ℕ) (hl : l ≠ []) : l.foldr max 0 ∈ l := by
  induction l with
  | nil => exact absurd rfl hl
  | cons a t ih =>
    cases t with
    | nil => simp
    | cons b t' =>
      rw [List.foldr_cons]
      rcases le_total (List.foldr max 0 (b :: t')) a with h | h
      · rw [max_eq_left h]; exact List.mem_cons_self a _
      · rw [max_eq_right h]; exact List.mem_cons_of_mem a (ih (by simp))

theorem getLast?_of_sorted_max (K : List ℕ) (M : ℕ)
    (hs : K.Pairwise (fun a b : ℕ => a ≤ b)) (hM : M ∈ K) (hub : ∀ q ∈ K, q ≤ M) :
    K.getLast? = some M := by
  induction K with
  | nil => cases hM
  | cons p rest ih =>
    cases rest with
    | nil =>
      have : M = p := List.mem_singleton.mp hM
      simp [this]
    | cons q rest' =>
      rw [List.getLast?_cons_cons]
      refine ih (List.Pairwise.of_cons hs) ?_ fun b hb => hub b (List.mem_cons_of_mem p hb)
      cases List.mem_cons.mp hM with
      | inl h =>
        have h1 : p ≤ q := (List.pairwise_cons.mp hs).1 q (List.mem_cons_self q rest')
        have h2 : q ≤ M := hub q (List.mem_cons_of_mem p (List.mem_cons_self q rest'))
        have : q = M := le_antisymm h2 (h ▸ h1)
        exact this ▸ List.mem_cons_self q rest'
      | inr h => exact h

theorem writePages_cons (nbp : List (ℕ × List Note)) (dims : List (ℕ × ℚ × ℚ)) (M p : ℕ)
    (rest : List ℕ) (wh : ℚ × ℚ) (hwh : lookupDim dims p = some wh) :
    writePages nbp dims M (p :: rest) =
      ((if p ≠ M then pageBlock nbp dims p ++ [sepChunk] else pageBlock nbp dims p) ++
        (writePages nbp dims M rest).1, (writePages nbp dims M rest).2) := by
  rw [writePages, hwh]
  have hblock : pageHeader p ::
      (reorder_notes_on_page (lookupNotes nbp p) wh.1).map noteLine = pageBlock nbp dims p := by
    rw [pageBlock, hwh]
    rfl
  simp only [hblock]

theorem writePages_all_present (nbp : List (ℕ × List Note)) (dims : List (ℕ × ℚ × ℚ)) (M : ℕ) :
    ∀ K : List ℕ, K.Pairwise (fun a b : ℕ => a < b) →
      (∀ q ∈ K, (lookupDim dims q).isSome) → (K.getLast? = some M ∨ K = []) →
      writePages nbp dims M K = (joinBlocks (K.map (pageBlock nbp dims)), none) := by
  intro K
  induction K with
  | nil => intro _ _ _; rfl
  | cons p rest ih =>
    intro hpw hsome hlast
    obtain ⟨wh, hwh⟩ := Option.isSome_iff_exists.mp (hsome p (List.mem_cons_self p rest))
    rw [writePages_cons nbp dims M p rest wh hwh]
    cases rest with
    | nil =>
      have hpM : p = M := by
        cases hlast with
        | inl h => simpa using h
        | inr h => cases h
      rw [if_neg (by simp [hpM])]
      simp [writePages, joinBlocks]
    | cons q rest' =>
      have hlast' : (q :: rest').getLast? = some M := by
        cases hlast with
        | inl h => rw [← List.getLast?_cons_cons (l := rest') (a := p) (b := q)]; exact h
        | inr h => cases h
      have hM : M ∈ q :: rest' := by
        have := List.getLast?_eq_getLast (q :: rest') (by simp)
        rw [this] at hlast'
        exact (Option.some_injective _ hlast') ▸ List.getLast_mem _
      have hpM : p ≠ M := by
        have : p < M := (List.pairwise_cons.mp hpw).1 M hM
        omega
      rw [if_pos hpM]
      rw [ih (List.Pairwise.of_cons hpw)
        (fun b hb => hsome b (List.mem_cons_of_mem p hb)) (Or.inl hlast')]
      have hjoin : joinBlocks ((p :: q :: rest').map (pageBlock nbp dims)) =
          pageBlock nbp dims p ++ sepChunk :: joinBlocks ((q :: rest').map (pageBlock nbp dims)) := by
        rfl
      rw [List.map_cons, hjoin]
      simp

/-- C7: the writer emits page blocks in ascending numeric page order, each
headed by its `Page N` chunk, with the separator block after every page
except the numerically last one, and no lookup error. -/
theorem C7_page_order (nbp : List (ℕ × List Note)) (dims : List (ℕ × ℚ × ℚ))
    (hnd : (nbp.map fun e => e.1).Nodup)
    (hsome : ∀ p ∈ nbp.map fun e => e.1, (lookupDim dims p).isSome) :
    write_reordered_notes nbp dims =
      (joinBlocks ((sortedKeys nbp).map (pageBlock nbp dims)), none) := by
  have hperm : (sortedKeys nbp).Perm (nbp.map fun e => e.1) :=
    List.perm_insertionSort _ _
  have hsorted : (sortedKeys nbp).Pairwise (fun a b : ℕ => a ≤ b) :=
    List.sorted_insertionSort _ _
  have hnd' : (sortedKeys nbp).Nodup := hperm.nodup_iff.mpr hnd
  have hlt : (sortedKeys nbp).Pairwise (fun a b : ℕ => a < b) :=
    (hsorted.and hnd').imp fun h => lt_of_le_of_ne h.1 h.2
  have hsome' : ∀ q ∈ sortedKeys nbp, (lookupDim dims q).isSome :=
    fun q hq => hsome q (hperm.subset hq)
  have hlast : (sortedKeys nbp).getLast? = some (maxKeyOf nbp) ∨ sortedKeys nbp = [] := by
    by_cases hK : sortedKeys nbp = []
    · exact Or.inr hK
    · left
      have hkeys : (nbp.map fun e => e.1) ≠ [] := by
        intro h
        exact hK ((h ▸ hperm).eq_nil)
      refine getLast?_of_sorted_max _ _ hsorted ?_ ?_
      · exact hperm.mem_iff.mpr (foldr_max_mem _ hkeys)
      · exact fun q hq => le_foldr_max _ q (hperm.subset hq)
  exact writePages_all_present nbp dims (maxKeyOf nbp) (sortedKeys nbp) hlt hsome' hlast

theorem C7_page_order_witness :
    (([(3, [(("* Highlight, page 3\nthree".toList, (5 : ℚ), (5 : ℚ)) : Note)]),
       (1, [(("* Highlight, page 1\none".toList, (5 : ℚ), (5 : ℚ)) : Note)])] :
        List (ℕ × List Note)).map fun e => e.1).Nodup ∧
    write_reordered_notes
        [(3, [(("* Highlight, page 3\nthree".toList, (5 : ℚ), (5 : ℚ)) : Note)]),
         (1, [(("* Highlight, page 1\none".toList, (5 : ℚ), (5 : ℚ)) : Note)])]
        [(1, ((100 : ℚ), (200 : ℚ))), (3, ((100 : ℚ), (200 : ℚ)))] =
      (["Page 1\n".toList, "- one\n".toList, "\n----------\n\n".toList,
        "Page 3\n".toList, "- three\n".toList], none) :=
  ⟨by decide,
   (C7_page_order
      [(3, [(("* Highlight, page 3\nthree".toList, (5 : ℚ), (5 : ℚ)) : Note)]),
       (1, [(("* Highlight, page 1\none".toList, (5 : ℚ), (5 : ℚ)) : Note)])]
      [(1, ((100 : ℚ), (200 : ℚ))), (3, ((100 : ℚ), (200 : ℚ)))]
      (by decide) (by decide)).trans (by with_unfolding_all decide)⟩

theorem writePages_missing (nbp : List (ℕ × List Note)) (dims : List (ℕ × ℚ × ℚ)) (M : ℕ) :
    ∀ K : List ℕ, K.Pairwise (fun a b : ℕ => a < b) → (∀ q ∈ K, q ≤ M) →
      (∃ q ∈ K, lookupDim dims q = none) →
      ∃ p0, p0 ∈ K ∧ lookupDim dims p0 = none ∧
        writePages nbp dims M K =
          (((K.takeWhile fun q => (lookupDim dims q).isSome).map
              fun q => pageBlock nbp dims q ++ [sepChunk]).flatten, some p0) ∧
        (∀ q ∈ K.takeWhile fun q => (lookupDim dims q).isSome, q < p0) := by
  intro K
  induction K with
  | nil =>
    rintro _ _ ⟨q, hq, _⟩
    cases hq
  | cons p rest ih =>
    intro hpw hub hex
    cases hcase : lookupDim dims p with
    | none =>
      refine ⟨p, List.mem_cons_self p rest, hcase, ?_, ?_⟩
      · have htw : (p :: rest).takeWhile (fun q => (lookupDim dims q).isSome) = [] := by
          rw [List.takeWhile_cons]
          simp [hcase]
        rw [htw]
        simp [writePages, hcase]
      · intro q hq
        rw [List.takeWhile_cons] at hq
        simp [hcase] at hq
    | some wh =>
      have hex' : ∃ q ∈ rest, lookupDim dims q = none := by
        rcases hex with ⟨q, hq, hqn⟩
        cases List.mem_cons.mp hq with
        | inl h => rw [h, hcase] at hqn; cases hqn
        | inr h => exact ⟨q, h, hqn⟩
      obtain ⟨p0, hp0mem, hp0none, hwrite, hlt⟩ :=
        ih (List.Pairwise.of_cons hpw) (fun q hq => hub q (List.mem_cons_of_mem p hq)) hex'
      have hpp0 : p < p0 := (List.pairwise_cons.mp hpw).1 p0 hp0mem
      have hpM : p ≠ M := by
        have := hub p0 (List.mem_cons_of_mem p hp0mem)
        omega
      have htw : (p :: rest).takeWhile (fun q => (lookupDim dims q).isSome) =
          p :: rest.takeWhile (fun q => (lookupDim dims q).isSome) := by
        rw [List.takeWhile_cons]
        simp [hcase]
      refine ⟨p0, List.mem_cons_of_mem p hp0mem, hp0none, ?_, ?_⟩
      · rw [writePages_cons nbp dims M p rest wh hcase, if_pos hpM, hwrite, htw]
        simp [List.append_assoc]
      · intro q hq
        rw [htw] at hq
        cases List.mem_cons.mp hq with
        | inl h => omega
        | inr h => exact hlt q h

/-- C8: if some page with notes has no entry in the page dimensions, the
write fails with a lookup error naming the first such page in write order,
and only the blocks of the pages strictly before it are written; no default
geometry is substituted. -/
theorem C8_missing_geometry (nbp : List (ℕ × List Note)) (dims : List (ℕ × ℚ × ℚ))
    (hnd : (nbp.map fun e => e.1).Nodup) (p : ℕ) (hp : p ∈ nbp.map fun e => e.1)
    (hmiss : lookupDim dims p = none) :
    ∃ p0, p0 ∈ (nbp.map fun e => e.1) ∧ lookupDim dims p0 = none ∧
      write_reordered_notes nbp dims =
        ((((sortedKeys nbp).takeWhile fun q => (lookupDim dims q).isSome).map
            fun q => pageBlock nbp dims q ++ [sepChunk]).flatten, some p0) ∧
      ∀ q ∈ (sortedKeys nbp).takeWhile fun q => (lookupDim dims q).isSome, q < p0 := by
  have hperm : (sortedKeys nbp).Perm (nbp.map fun e => e.1) :=
    List.perm_insertionSort _ _
  have hsorted : (sortedKeys nbp).Pairwise (fun a b : ℕ => a ≤ b) :=
    List.sorted_insertionSort _ _
  have hnd' : (sortedKeys nbp).Nodup := hperm.nodup_iff.mpr hnd
  have hlt : (sortedKeys nbp).Pairwise (fun a b : ℕ => a < b) :=
    (hsorted.and hnd').imp fun h => lt_of_le_of_ne h.1 h.2
  have hub : ∀ q ∈ sortedKeys nbp, q ≤ maxKeyOf nbp :=
    fun q hq => le_foldr_max _ q (hperm.subset hq)
  obtain ⟨p0, hmem, hnone, hwrite, hlt'⟩ :=
    writePages_missing nbp dims (maxKeyOf nbp) (sortedKeys nbp) hlt hub
      ⟨p, hperm.mem_iff.mpr hp, hmiss⟩
  exact ⟨p0, hperm.subset hmem, hnone, hwrite, hlt'⟩

theorem C8_missing_geometry_witness :
    (([(3, [(("* Highlight, page 3\nthree".toList, (5 : ℚ), (5 : ℚ)) : Note)]),
       (1, [(("* Highlight, page 1\none".toList, (5 : ℚ), (5 : ℚ)) : Note)])] :
        List (ℕ × List Note)).map fun e => e.1).Nodup ∧
    (3 : ℕ) ∈ (([(3, [(("* Highlight, page 3\nthree".toList, (5 : ℚ), (5 : ℚ)) : Note)]),
       (1, [(("* Highlight, page 1\none".toList, (5 : ℚ), (5 : ℚ)) : Note)])] :
        List (ℕ × List Note)).map fun e => e.1) ∧
    lookupDim [(1, ((100 : ℚ), (200 : ℚ)))] 3 = none ∧
    (∃ p0, p0 ∈ (([(3, [(("* Highlight, page 3\nthree".toList, (5 : ℚ), (5 : ℚ)) : Note)]),
         (1, [(("* Highlight, page 1\none".toList, (5 : ℚ), (5 : ℚ)) : Note)])] :
          List (ℕ × List Note)).map fun e => e.1) ∧
      lookupDim [(1, ((100 : ℚ), (200 : ℚ)))] p0 = none ∧
      write_reordered_notes
          [(3, [(("* Highlight, page 3\nthree".toList, (5 : ℚ), (5 : ℚ)) : Note)]),
           (1, [(("* Highlight, page 1\none".toList, (5 : ℚ), (5 : ℚ)) : Note)])]
          [(1, ((100 : ℚ), (200 : ℚ)))] =
        ((((sortedKeys
              [(3, [(("* Highlight, page 3\nthree".toList, (5 : ℚ), (5 : ℚ)) : Note)]),
               (1, [(("* Highlight, page 1\none".toList, (5 : ℚ), (5 : ℚ)) : Note)])]).takeWhile
            fun q => (lookupDim [(1, ((100 : ℚ), (200 : ℚ)))] q).isSome).map
            fun q => pageBlock
              [(3, [(("* Highlight, page 3\nthree".toList, (5 : ℚ), (5 : ℚ)) : Note)]),
               (1, [(("* Highlight, page 1\none".toList, (5 : ℚ), (5 : ℚ)) : Note)])]
              [(1, ((100 : ℚ), (200 : ℚ)))] q ++ [sepChunk]).flatten, some p0) ∧
      ∀ q ∈ (sortedKeys
          [(3, [(("* Highlight, page 3\nthree".toList, (5 : ℚ), (5 : ℚ)) : Note)]),
           (1, [(("* Highlight, page 1\none".toList, (5 : ℚ), (5 : ℚ)) : Note)])]).takeWhile
          fun q => (lookupDim [(1, ((100 : ℚ), (200 : ℚ)))] q).isSome, q < p0) :=
  ⟨by decide, by decide, by decide,
   C8_missing_geometry
     [(3, [(("* Highlight, page 3\nthree".toList, (5 : ℚ), (5 : ℚ)) : Note)]),
      (1, [(("* Highlight, page 1\none".toList, (5 : ℚ), (5 : ℚ)) : Note)])]
     [(1, ((100 : ℚ), (200 : ℚ)))] (by decide) 3 (by decide) (by decide)⟩

theorem digitChar_isDigit (n : ℕ) (h : n < 10) : (digitChar n).isDigit = true := by
  interval_cases n <;> decide

theorem natDigitsAux_digits (fuel n : ℕ) : ∀ c ∈ natDigitsAux fuel n, c.isDigit = true := by
  induction fuel generalizing n with
  | zero => intro c hc; cases hc
  | succ f ih =>
    intro c hc
    rw [natDigitsAux] at hc
    by_cases h : n < 10
    · rw [if_pos h] at hc
      rw [List.mem_singleton.mp hc]
      exact digitChar_isDigit n h
    · rw [if_neg h] at hc
      cases List.mem_append.mp hc with
      | inl h2 => exact ih (n / 10) c h2
      | inr h2 =>
        rw [List.mem_singleton.mp h2]
        exact digitChar_isDigit _ (Nat.mod_lt _ (by omega))

theorem splitNL_append_nl (a c : Str) (ha : ∀ x ∈ a, x ≠ '\n') :
    splitNL (a ++ '\n' :: c) = a :: splitNL c := by
  induction a with
  | nil => simp [splitNL]
  | cons x t ih =>
    have hx : x ≠ '\n' := ha x (List.mem_cons_self x t)
    rw [List.cons_append, splitNL, if_neg hx,
      ih fun y hy => ha y (List.mem_cons_of_mem x hy)]

theorem splitNL_head (c : Str) :
    ∃ ss, splitNL c = (c.takeWhile fun x => x != '\n') :: ss := by
  induction c with
  | nil => exact ⟨[], rfl⟩
  | cons x t ih =>
    by_cases hx : x = '\n'
    · subst hx
      exact ⟨splitNL t, by simp [splitNL, List.takeWhile_cons]⟩
    · obtain ⟨ss, hss⟩ := ih
      refine ⟨ss, ?_⟩
      rw [splitNL, if_neg hx, hss, List.takeWhile_cons]
      simp [hx]

theorem mem_nl_decomp (c : Str) (h : '\n' ∈ c) :
    ∃ rest, c = (c.takeWhile fun x => x != '\n') ++ '\n' :: rest := by
  induction c with
  | nil => cases h
  | cons x t ih =>
    by_cases hx : x = '\n'
    · subst hx
      exact ⟨t, by simp [List.takeWhile_cons]⟩
    · have ht : '\n' ∈ t := by
        cases List.mem_cons.mp h with
        | inl h2 => exact absurd h2.symm hx
        | inr h2 => exact h2
      obtain ⟨rest, hrest⟩ := ih ht
      refine ⟨rest, ?_⟩
      rw [List.takeWhile_cons, if_pos (by simpa using hx), List.cons_append, ← hrest]

/-- C10: when a note's unescaped content contains a newline, the report
writer takes exactly the second line of the two-line display text, so only
the part of the content before its first newline is printed; everything
after that newline is silently omitted. -/
theorem C10_newline_truncation (p : ℕ) (c : Str) (h : '\n' ∈ c) :
    extractContent (noteText p c) = c.takeWhile (fun x => x != '\n') ∧
    noteLine (noteText p c) =
      '-' :: ' ' :: cleanContent (c.takeWhile fun x => x != '\n') ++ ['\n'] ∧
    ∃ rest, c = (c.takeWhile fun x => x != '\n') ++ '\n' :: rest := by
  have hhead : ∀ x ∈ "* Highlight, page ".toList ++ natDigits p, x ≠ '\n' := by
    intro x hx
    cases List.mem_append.mp hx with
    | inl h2 =>
      have hall : ∀ y ∈ "* Highlight, page ".toList, y ≠ '\n' := by decide
      exact hall x h2
    | inr h2 =>
      intro heq
      have := natDigitsAux_digits (p + 1) p x h2
      rw [heq] at this
      exact absurd this (by decide)
  have hsplit : splitNL (noteText p c) =
      ("* Highlight, page ".toList ++ natDigits p) :: splitNL c := by
    rw [noteText]
    exact splitNL_append_nl _ c hhead
  have h1 : extractContent (noteText p c) = c.takeWhile (fun x => x != '\n') := by
    rw [extractContent, hsplit, List.getD_cons_succ]
    obtain ⟨ss, hss⟩ := splitNL_head c
    rw [hss, List.getD_cons_zero]
  exact ⟨h1, by rw [noteLine, h1], mem_nl_decomp c h⟩

theorem C10_newline_truncation_witness :
    '\n' ∈ "ab\ncd".toList ∧
    (extractContent (noteText 1 "ab\ncd".toList) =
        "ab\ncd".toList.takeWhile (fun x => x != '\n') ∧
     noteLine (noteText 1 "ab\ncd".toList) =
        '-' :: ' ' :: cleanContent ("ab\ncd".toList.takeWhile fun x => x != '\n') ++ ['\n'] ∧
     ∃ rest, "ab\ncd".toList = ("ab\ncd".toList.takeWhile fun x => x != '\n') ++ '\n' :: rest) :=
  ⟨by decide, C10_newline_truncation 1 "ab\ncd".toList (by decide)⟩

/-! ## The annotation parser (C3) -/

/-- C3 (counterexample): an annotation record whose rectangle holds the
negative coordinate `-5.0` — while containing the type marker, the Highlight
subtype, four numbers, a zero-based page field and a contents field —
produces no note at all: the coordinate pattern `(\d+\.?\d*)` accepts
neither a sign nor a number without a leading digit. -/
theorem C3_counterexample_negative_rect : parse_fdf_notes cexInput = [] := by decide

theorem matchLit_self (p : Str) : ∀ s : Str, matchLit p (p ++ s) = some s := by
  induction p with
  | nil => intro s; rfl
  | cons c cs ih =>
    intro s
    rw [List.cons_append, matchLit, if_pos rfl]
    exact ih s

theorem munch_append (ds : Str) (hds : ds.all Char.isDigit = true) :
    ∀ x : Str, (∀ ch, x.head? = some ch → ch.isDigit = false) →
      munchDigits (ds ++ x) = (ds, x) := by
  induction ds with
  | nil =>
    intro x hx
    cases x with
    | nil => rfl
    | cons c t =>
      rw [List.nil_append, munchDigits, if_neg (by simp [hx c rfl])]
  | cons d ds' ih =>
    intro x hx
    rw [List.all_cons, Bool.and_eq_true] at hds
    rw [List.cons_append, munchDigits, if_pos hds.1, ih hds.2 x hx]

theorem matchNum_append (t : Str) (ht : NumTok t) (sep : Char)
    (hsep : sep.isDigit = false) (hsep2 : sep ≠ '.') (r : Str) :
    matchNum (t ++ sep :: r) = some (t, sep :: r) := by
  obtain ⟨ds, fs, hne, hds, hfs, hcase⟩ := ht
  obtain ⟨e, ds', rfl⟩ := List.exists_cons_of_ne_nil hne
  have hhead : ∀ ch : Char, (sep :: r).head? = some ch → ch.isDigit = false := by
    intro ch hch
    injection hch with h1
    rw [← h1]
    exact hsep
  cases hcase with
  | inl h =>
    subst h
    rw [matchNum, munch_append _ hds _ hhead]
    rw [if_neg (by simp)]
    show (if sep = '.' then
        some ((e :: ds') ++ '.' :: (munchDigits r).1, (munchDigits r).2)
      else some (e :: ds', sep :: r)) = some (e :: ds', sep :: r)
    rw [if_neg hsep2]
  | inr h =>
    subst h
    have hshape : (e :: ds') ++ '.' :: fs ++ sep :: r = (e :: ds') ++ ('.' :: (fs ++ sep :: r)) := by
      simp
    rw [hshape, matchNum, munch_append _ hds _ (by intro ch hch; injection hch with h1; rw [← h1]; decide)]
    rw [if_neg (by simp)]
    show (if ('.' : Char) = '.' then
        some ((e :: ds') ++ '.' :: (munchDigits (fs ++ sep :: r)).1,
          (munchDigits (fs ++ sep :: r)).2)
      else some (e :: ds', '.' :: (fs ++ sep :: r))) = some ((e :: ds') ++ '.' :: fs, sep :: r)
    rw [if_pos rfl, munch_append _ hfs _ hhead]

theorem matchNumSep_append (sep : Char) (hsep : sep.isDigit = false) (hsep2 : sep ≠ '.')
    (t : Str) (ht : NumTok t) (r : Str) :
    matchNumSep sep (t ++ sep :: r) = some (t, r) := by
  rw [matchNumSep, matchNum_append t ht sep hsep hsep2 r]
  show (if sep = sep then some (t, r) else none) = some (t, r)
  rw [if_pos rfl]

theorem plainChar_spec (c : Char) (h : plainChar c = true) :
    c ≠ '(' ∧ c ≠ ')' ∧ c ≠ '\\' := by
  rw [plainChar] at h
  simp only [Bool.not_eq_true', Bool.or_eq_false_iff, beq_eq_false_iff_ne] at h
  exact ⟨h.1.1, h.1.2, h.2⟩

theorem matchInner_content (m : Str) (hm : InnerOk m) :
    ∀ r : Str, matchInner (m ++ ')' :: r) = some (m, r) := by
  induction hm with
  | nil =>
    intro r
    rw [List.nil_append, matchInner.eq_def]
    simp
  | esc d t _ ih =>
    intro r
    rw [matchInner.eq_def]
    simp [ih r]
  | plain c t hc _ ih =>
    intro r
    obtain ⟨h1, h2, h3⟩ := plainChar_spec c hc
    rw [matchInner.eq_def]
    simp [ih r, h1, h2, h3]

theorem matchTopF_content (c : Str) (hc : ContentOk c) :
    ∀ (fuel : ℕ) (r : Str), c.length + 1 ≤ fuel →
      matchTopF fuel (c ++ ')' :: r) = some (c, r) := by
  induction hc with
  | nil =>
    intro fuel r hf
    obtain ⟨f, rfl⟩ : ∃ f, fuel = f + 1 := ⟨fuel - 1, by omega⟩
    rw [List.nil_append, matchTopF.eq_def]
    simp
  | esc d t _ ih =>
    intro fuel r hf
    obtain ⟨f, rfl⟩ : ∃ f, fuel = f + 1 := ⟨fuel - 1, by omega⟩
    rw [matchTopF.eq_def]
    simp [ih f r (by simp at hf ⊢; omega)]
  | plain x t hx _ ih =>
    intro fuel r hf
    obtain ⟨f, rfl⟩ : ∃ f, fuel = f + 1 := ⟨fuel - 1, by omega⟩
    obtain ⟨h1, h2, h3⟩ := plainChar_spec x hx
    rw [matchTopF.eq_def]
    simp [ih f r (by simp at hf ⊢; omega), h1, h2, h3]
  | nested m t hm _ ih =>
    intro fuel r hf
    obtain ⟨f, rfl⟩ : ∃ f, fuel = f + 1 := ⟨fuel - 1, by omega⟩
    have hshape : (('(' :: m) ++ ')' :: t) ++ ')' :: r =
        '(' :: (m ++ ')' :: (t ++ ')' :: r)) := by simp
    rw [hshape, matchTopF.eq_def]
    have hinner := matchInner_content m hm (t ++ ')' :: r)
    simp [hinner, ih f r (by simp at hf ⊢; omega)]

theorem tryContents_none (s : Str) (h : matchLit contLit s = none) : tryContents s = none := by
  unfold tryContents
  rw [h]
  rfl

theorem tryPage_none (s : Str) (h : matchLit pageLit s = none) : tryPage s = none := by
  unfold tryPage
  rw [h]
  rfl

theorem tryRect_none (s : Str) (h : matchLit rectLit s = none) : tryRect s = none := by
  unfold tryRect
  rw [h]
  rfl

theorem matchRecord_none (s : Str) (h : matchLit markerLit s = none) :
    matchRecord s = none := by
  unfold matchRecord
  rw [h]
  rfl

theorem tryContents_append (c : Str) (hc : ContentOk c) (rest : Str) :
    tryContents (contLit ++ (c ++ ')' :: rest)) = some (c, rest) := by
  unfold tryContents
  rw [matchLit_self, Option.some_bind]
  rw [matchTopF_content c hc _ rest (by
    simp only [List.length_append, List.length_cons]
    omega)]

theorem searchContents_of_try (s : Str) (v : Str × Str) (h : tryContents s = some v) :
    searchContents s = some v := by
  cases s with
  | nil =>
    rw [show tryContents [] = none from rfl] at h
    cases h
  | cons x t =>
    rw [searchContents.eq_def]
    simp [h]

theorem searchPage_of_try (s : Str) (v : Str × Str × Str) (h : tryPage s = some v) :
    searchPage s = some v := by
  cases s with
  | nil =>
    rw [show tryPage [] = none from rfl] at h
    cases h
  | cons x t =>
    rw [searchPage.eq_def]
    simp [h]

theorem searchRect_of_try (s : Str) (v : RawMatch × Str) (h : tryRect s = some v) :
    searchRect s = some v := by
  cases s with
  | nil =>
    rw [show tryRect [] = none from rfl] at h
    cases h
  | cons x t =>
    rw [searchRect.eq_def]
    simp [h]

theorem searchContents_gap (g : Str) : ∀ s : Str,
    (∀ i, i < g.length → tryContents (List.drop i g ++ s) = none) →
    searchContents (g ++ s) = searchContents s := by
  induction g with
  | nil =>
    intro s _
    rw [List.nil_append]
  | cons x t ih =>
    intro s hg
    have h0 : tryContents (x :: (t ++ s)) = none := by
      have := hg 0 (by simp)
      simpa using this
    rw [List.cons_append, searchContents.eq_def]
    simp only [h0]
    exact ih s fun i hi => by
      have := hg (i + 1) (by simp only [List.length_cons]; omega)
      simpa using this

theorem searchPage_gap (g : Str) : ∀ s : Str,
    (∀ i, i < g.length → tryPage (List.drop i g ++ s) = none) →
    searchPage (g ++ s) = searchPage s := by
  induction g with
  | nil =>
    intro s _
    rw [List.nil_append]
  | cons x t ih =>
    intro s hg
    have h0 : tryPage (x :: (t ++ s)) = none := by
      have := hg 0 (by simp)
      simpa using this
    rw [List.cons_append, searchPage.eq_def]
    simp only [h0]
    exact ih s fun i hi => by
      have := hg (i + 1) (by simp only [List.length_cons]; omega)
      simpa using this

theorem searchRect_gap (g : Str) : ∀ s : Str,
    (∀ i, i < g.length → tryRect (List.drop i g ++ s) = none) →
    searchRect (g ++ s) = searchRect s := by
  induction g with
  | nil =>
    intro s _
    rw [List.nil_append]
  | cons x t ih =>
    intro s hg
    have h0 : tryRect (x :: (t ++ s)) = none := by
      have := hg 0 (by simp)
      simpa using this
    rw [List.cons_append, searchRect.eq_def]
    simp only [h0]
    exact ih s fun i hi => by
      have := hg (i + 1) (by simp only [List.length_cons]; omega)
      simpa using this

theorem searchContents_contPart (r : RecordSpec) (rest : Str)
    (hg3 : ∀ i, i < r.g3.length →
      matchLit contLit (List.drop i r.g3 ++ (contLit ++ (r.content ++ ')' :: rest))) = none)
    (hc : ContentOk r.content) :
    searchContents (contPart r rest) = some (r.content, rest) := by
  rw [contPart, searchContents_gap r.g3 _ fun i hi => tryContents_none _ (hg3 i hi)]
  exact searchContents_of_try _ _ (tryContents_append r.content hc rest)

theorem tryPage_pagePart (r : RecordSpec) (rest : Str)
    (hne : r.pg ≠ []) (hdig : r.pg.all Char.isDigit = true)
    (hg3 : ∀ i, i < r.g3.length →
      matchLit contLit (List.drop i r.g3 ++ (contLit ++ (r.content ++ ')' :: rest))) = none)
    (hg3h : ∀ ch, r.g3.head? = some ch → ch.isDigit = false)
    (hc : ContentOk r.content) :
    tryPage (pageLit ++ (r.pg ++ contPart r rest)) = some (r.pg, r.content, rest) := by
  have hh : ∀ ch, (contPart r rest).head? = some ch → ch.isDigit = false := by
    intro ch hch
    rw [contPart] at hch
    cases hg3c : r.g3 with
    | nil =>
      rw [hg3c, List.nil_append] at hch
      rw [show (contLit ++ (r.content ++ ')' :: rest)).head? = some '/' from rfl] at hch
      injection hch with hc1
      rw [← hc1]
      decide
    | cons y t =>
      rw [hg3c, List.cons_append, List.head?_cons] at hch
      injection hch with hc1
      rw [← hc1]
      exact hg3h y (by rw [hg3c]; rfl)
  unfold tryPage
  rw [matchLit_self, Option.some_bind]
  rw [munch_append _ hdig _ hh]
  rw [if_neg hne]
  rw [searchContents_contPart r rest hg3 hc, Option.map_some']

theorem searchPage_pagePart (r : RecordSpec) (rest : Str)
    (hg2 : ∀ i, i < r.g2.length →
      matchLit pageLit (List.drop i r.g2 ++ (pageLit ++ (r.pg ++ contPart r rest))) = none)
    (hne : r.pg ≠ []) (hdig : r.pg.all Char.isDigit = true)
    (hg3 : ∀ i, i < r.g3.length →
      matchLit contLit (List.drop i r.g3 ++ (contLit ++ (r.content ++ ')' :: rest))) = none)
    (hg3h : ∀ ch, r.g3.head? = some ch → ch.isDigit = false)
    (hc : ContentOk r.content) :
    searchPage (pagePart r rest) = some (r.pg, r.content, rest) := by
  rw [pagePart, searchPage_gap r.g2 _ fun i hi => tryPage_none _ (hg2 i hi)]
  exact searchPage_of_try _ _ (tryPage_pagePart r rest hne hdig hg3 hg3h hc)

theorem tryRect_rectPart (r : RecordSpec) (rest : Str)
    (h1 : NumTok r.t1) (h2 : NumTok r.t2) (h3 : NumTok r.t3) (h4 : NumTok r.t4)
    (hne : r.pg ≠ []) (hdig : r.pg.all Char.isDigit = true)
    (hg2 : ∀ i, i < r.g2.length →
      matchLit pageLit (List.drop i r.g2 ++ (pageLit ++ (r.pg ++ contPart r rest))) = none)
    (hg3 : ∀ i, i < r.g3.length →
      matchLit contLit (List.drop i r.g3 ++ (contLit ++ (r.content ++ ')' :: rest))) = none)
    (hg3h : ∀ ch, r.g3.head? = some ch → ch.isDigit = false)
    (hc : ContentOk r.content) :
    tryRect (rectPart r rest) = some (rawOf r, rest) := by
  rw [rectPart]
  unfold tryRect
  rw [matchLit_self, Option.some_bind]
  rw [matchNumSep_append ' ' (by decide) (by decide) r.t1 h1 _, Option.some_bind]
  rw [matchNumSep_append ' ' (by decide) (by decide) r.t2 h2 _, Option.some_bind]
  rw [matchNumSep_append ' ' (by decide) (by decide) r.t3 h3 _, Option.some_bind]
  rw [matchNumSep_append ']' (by decide) (by decide) r.t4 h4 _, Option.some_bind]
  rw [searchPage_pagePart r rest hg2 hne hdig hg3 hg3h hc, Option.map_some']
  rfl

theorem matchRecord_core (r : RecordSpec) (rest : Str) (h : RecordHyps r rest) :
    matchRecord (recordCore r rest) = some (rawOf r, rest) := by
  obtain ⟨h1, h2, h3, h4, hne, hdig, hc, hg1, hg2, hg3, hg3h, hj⟩ := h
  rw [recordCore]
  unfold matchRecord
  rw [matchLit_self, Option.some_bind]
  rw [searchRect_gap r.g1 _ fun i hi => tryRect_none _ (hg1 i hi)]
  exact searchRect_of_try _ _
    (tryRect_rectPart r rest h1 h2 h3 h4 hne hdig hg2 hg3 hg3h hc)
theorem findAllF_match (fuel : ℕ) (s : Str) (hne : s ≠ []) (m : RawMatch) (rest : Str)
    (h : matchRecord s = some (m, rest)) :
    findAllF (fuel + 1) s = m :: findAllF fuel rest := by
  obtain ⟨c, t, rfl⟩ := List.exists_cons_of_ne_nil hne
  rw [findAllF.eq_def]
  simp only [h]

theorem findAllF_none_step (fuel : ℕ) (c : Char) (t : Str)
    (h : matchRecord (c :: t) = none) :
    findAllF (fuel + 1) (c :: t) = findAllF fuel t := by
  rw [findAllF.eq_def]
  simp only [h]

theorem findAllF_no_marker (s : Str)
    (h : ∀ i, i < s.length → matchLit markerLit (List.drop i s) = none) :
    ∀ fuel, findAllF fuel s = [] := by
  induction s with
  | nil => intro fuel; cases fuel <;> rfl
  | cons x t ih =>
    intro fuel
    cases fuel with
    | zero => rfl
    | succ f =>
      rw [findAllF_none_step f x t (matchRecord_none _ (by simpa using h 0 (by simp)))]
      exact ih (fun i hi => by
        have := h (i + 1) (by simp only [List.length_cons]; omega)
        simpa using this) f

theorem findAllF_skip (J : Str) : ∀ (s : Str) (fuel : ℕ),
    (∀ i, i < J.length → matchLit markerLit (List.drop i J ++ s) = none) →
    findAllF (J.length + fuel) (J ++ s) = findAllF fuel s := by
  induction J with
  | nil => intro s fuel _; rw [List.nil_append, List.length_nil, Nat.zero_add]
  | cons x t ih =>
    intro s fuel hJ
    have hlen : (x :: t).length + fuel = (t.length + fuel) + 1 := by
      simp only [List.length_cons]; omega
    rw [hlen, List.cons_append,
      findAllF_none_step _ x (t ++ s)
        (matchRecord_none _ (by simpa using hJ 0 (by simp)))]
    exact ih s fuel (fun i hi => by
      have := hJ (i + 1) (by simp only [List.length_cons]; omega)
      simpa using this)

theorem markerLit_pos : 0 < markerLit.length := by decide

theorem recordCore_length (r : RecordSpec) (rest : Str) :
    rest.length < (recordCore r rest).length := by
  have := markerLit_pos
  simp only [recordCore, rectPart, pagePart, contPart, List.length_append,
    List.length_cons]
  omega

theorem recordCore_ne_nil (r : RecordSpec) (rest : Str) : recordCore r rest ≠ [] := by
  rw [recordCore]
  exact List.append_ne_nil_of_left_ne_nil (by decide) _

theorem findAllF_records : ∀ (rs : List RecordSpec) (tail : Str) (fuel : ℕ),
    RecordListOk rs tail → (recordsText rs tail).length + 1 ≤ fuel →
    findAllF fuel (recordsText rs tail) = rs.map rawOf := by
  intro rs
  induction rs with
  | nil =>
    intro tail fuel h _
    exact findAllF_no_marker tail h fuel
  | cons r rs ih =>
    intro tail fuel h hfuel
    obtain ⟨hr, hrs⟩ := h
    have hrec : recordsText (r :: rs) tail = r.j ++ recordCore r (recordsText rs tail) :=
      rfl
    rw [hrec] at hfuel ⊢
    have hcore := recordCore_length r (recordsText rs tail)
    obtain ⟨fuel1, rfl⟩ : ∃ fuel1, fuel = r.j.length + fuel1 := by
      refine ⟨fuel - r.j.length, ?_⟩
      simp only [List.length_append] at hfuel
      omega
    rw [findAllF_skip r.j _ fuel1 hr.2.2.2.2.2.2.2.2.2.2.2]
    obtain ⟨f, rfl⟩ : ∃ f, fuel1 = f + 1 := by
      simp only [List.length_append] at hfuel
      exact ⟨fuel1 - 1, by omega⟩
    rw [findAllF_match f _ (recordCore_ne_nil r _) _ _
      (matchRecord_core r (recordsText rs tail) hr)]
    rw [ih tail f hrs (by
      simp only [List.length_append] at hfuel
      omega)]
    rfl

theorem parse_records (rs : List RecordSpec) (tail : Str) (h : RecordListOk rs tail) :
    parse_fdf_notes (recordsText rs tail) =
      rs.foldl (fun nbp r => insertNote nbp (digitsVal r.pg + 1) (noteOf r)) [] := by
  rw [parse_fdf_notes, findAllF_records rs tail _ h (by omega), List.foldl_map]
  rfl
theorem lookupNotes_cons (q : ℕ) (ns : List Note) (rest : List (ℕ × List Note))
    (p : ℕ) :
    lookupNotes ((q, ns) :: rest) p = if q = p then ns else lookupNotes rest p := by
  by_cases h : q = p <;> simp [lookupNotes, List.find?_cons, h]

theorem lookupNotes_insert_self (nbp : List (ℕ × List Note)) (p : ℕ) (n : Note) :
    lookupNotes (insertNote nbp p n) p = lookupNotes nbp p ++ [n] := by
  induction nbp with
  | nil => simp [insertNote, lookupNotes]
  | cons e rest ih =>
    obtain ⟨q, ns⟩ := e
    by_cases h : q = p
    · rw [show insertNote ((q, ns) :: rest) p n = (q, ns ++ [n]) :: rest from by
        simp [insertNote, h]]
      rw [lookupNotes_cons, lookupNotes_cons, if_pos h, if_pos h]
    · rw [show insertNote ((q, ns) :: rest) p n = (q, ns) :: insertNote rest p n from by
        simp [insertNote, h]]
      rw [lookupNotes_cons, lookupNotes_cons, if_neg h, if_neg h, ih]

theorem lookupNotes_insert_other (nbp : List (ℕ × List Note)) (p p' : ℕ) (n : Note)
    (hne : p' ≠ p) :
    lookupNotes (insertNote nbp p n) p' = lookupNotes nbp p' := by
  induction nbp with
  | nil =>
    rw [show insertNote [] p n = [(p, [n])] from rfl, lookupNotes_cons,
      if_neg (fun he => hne he.symm)]
  | cons e rest ih =>
    obtain ⟨q, ns⟩ := e
    by_cases h : q = p
    · rw [show insertNote ((q, ns) :: rest) p n = (q, ns ++ [n]) :: rest from by
        simp [insertNote, h]]
      rw [lookupNotes_cons, lookupNotes_cons,
        if_neg (fun he => hne (he.symm.trans h)), if_neg (fun he => hne (he.symm.trans h))]
    · rw [show insertNote ((q, ns) :: rest) p n = (q, ns) :: insertNote rest p n from by
        simp [insertNote, h]]
      rw [lookupNotes_cons, lookupNotes_cons, ih]

theorem mem_lookupNotes_insert (nbp : List (ℕ × List Note)) (p : ℕ) (n : Note) :
    n ∈ lookupNotes (insertNote nbp p n) p := by
  rw [lookupNotes_insert_self]
  simp

theorem mem_lookupNotes_foldl (l : List RecordSpec) : ∀ (nbp : List (ℕ × List Note))
    (p : ℕ) (n : Note), n ∈ lookupNotes nbp p →
    n ∈ lookupNotes
      (l.foldl (fun acc r => insertNote acc (digitsVal r.pg + 1) (noteOf r)) nbp) p := by
  induction l with
  | nil => intro nbp p n h; exact h
  | cons r t ih =>
    intro nbp p n h
    apply ih
    by_cases hq : digitsVal r.pg + 1 = p
    · rw [← hq] at h ⊢
      rw [lookupNotes_insert_self]
      exact List.mem_append_left _ h
    · rw [lookupNotes_insert_other _ _ _ _ (fun he => hq he.symm)]
      exact h

theorem mem_note_of_foldl (rs : List RecordSpec) (r : RecordSpec) (hmem : r ∈ rs) :
    ∀ nbp : List (ℕ × List Note), noteOf r ∈ lookupNotes
      (rs.foldl (fun acc x => insertNote acc (digitsVal x.pg + 1) (noteOf x)) nbp)
      (digitsVal r.pg + 1) := by
  induction rs with
  | nil => cases hmem
  | cons x t ih =>
    intro nbp
    rcases List.mem_cons.mp hmem with heq | hmem'
    · subst heq
      exact mem_lookupNotes_foldl t _ _ _ (mem_lookupNotes_insert nbp _ _)
    · exact ih hmem' _
theorem ContentOk_of_plain (s : Str) (h : s.all plainChar = true) : ContentOk s := by
  induction s with
  | nil => exact ContentOk.nil
  | cons c r ih =>
    rw [List.all_cons, Bool.and_eq_true] at h
    exact ContentOk.plain c r h.1 (ih h.2)

theorem head_not_digit (l : Str) (h : (l.headD '/').isDigit = false) :
    ∀ ch, l.head? = some ch → ch.isDigit = false := by
  intro ch hch
  cases l with
  | nil => cases hch
  | cons x t =>
    injection hch with h1
    rw [← h1]
    exact h

/-- C3, amended: for every sequence of well-formed highlight annotation
records embedded in the decoded text — with arbitrary junk before each
record's type marker, arbitrary gap text between the fields, and arbitrary
trailing text — the parser produces exactly the notes of those records:
`NotesByPage` equals the left fold inserting each record's note under its
1-based page index, and in particular each record's note appears in the
list stored under its 1-based page index.  The records' coordinate tokens
must fit the number format `\d+\.?\d*` (the restriction forced by the
counterexample: no sign, at least one digit before an optional decimal
point), and the junk, gaps and trailing text satisfy the minimal
non-interference conditions that make "the record's fields" well defined:
no suffix of a gap or junk segment begins with the literal opening the next
field (respectively the type marker), and the gap after the page digits
does not start with a digit. -/
theorem C3_amended_records_parsed (rs : List RecordSpec) (tail : Str)
    (h : RecordListOk rs tail) :
    parse_fdf_notes (recordsText rs tail) =
      rs.foldl (fun nbp r => insertNote nbp (digitsVal r.pg + 1) (noteOf r)) [] ∧
    ∀ r ∈ rs, noteOf r ∈
      lookupNotes (parse_fdf_notes (recordsText rs tail)) (digitsVal r.pg + 1) := by
  refine ⟨parse_records rs tail h, fun r hr => ?_⟩
  rw [parse_records rs tail h]
  exact mem_note_of_foldl rs r hr []

set_option maxRecDepth 4000 in
/-- Witness: a text holding two records — the first preceded by a header
line and carrying gap text in all three gaps, the second embedded directly
after object junk with empty gaps — followed by trailing text, parses to
exactly the two expected notes. -/
theorem C3_amended_records_parsed_witness :
    RecordListOk [sampleRec1, sampleRec2] sampleTail ∧
    (parse_fdf_notes (recordsText [sampleRec1, sampleRec2] sampleTail) =
      ([sampleRec1, sampleRec2]).foldl
        (fun nbp r => insertNote nbp (digitsVal r.pg + 1) (noteOf r)) [] ∧
    ∀ r ∈ [sampleRec1, sampleRec2], noteOf r ∈
      lookupNotes (parse_fdf_notes (recordsText [sampleRec1, sampleRec2] sampleTail))
        (digitsVal r.pg + 1)) := by
  have hok : RecordListOk [sampleRec1, sampleRec2] sampleTail :=
    ⟨⟨⟨"10".toList, [], by decide, by decide, by decide, Or.inl rfl⟩,
      ⟨"700".toList, [], by decide, by decide, by decide, Or.inl rfl⟩,
      ⟨"50".toList, [], by decide, by decide, by decide, Or.inl rfl⟩,
      ⟨"720".toList, [], by decide, by decide, by decide, Or.inl rfl⟩,
      by decide, by decide, ContentOk_of_plain _ (by decide),
      by decide, by decide, by decide,
      head_not_digit _ (by decide), by decide⟩,
     ⟨⟨"400".toList, [], by decide, by decide, by decide, Or.inl rfl⟩,
      ⟨"100".toList, [], by decide, by decide, by decide, Or.inl rfl⟩,
      ⟨"440".toList, [], by decide, by decide, by decide, Or.inl rfl⟩,
      ⟨"120".toList, [], by decide, by decide, by decide, Or.inl rfl⟩,
      by decide, by decide, ContentOk_of_plain _ (by decide),
      by decide, by decide, by decide,
      head_not_digit _ (by decide), by decide⟩,
     by unfold RecordListOk TailOk; decide⟩
  exact ⟨hok, C3_amended_records_parsed _ _ hok⟩
